import Mathlib

/-!
# A shallow embedding of the shell in `src/main.cpp`

The embedding follows the POSIX build of the program (the branches taken when
`_WIN32` is not defined).  A `std::string` is a Lean `String`, a
`std::vector<std::string>` is a `List String`.  The ambient operating-system state that
the program reads and writes (environment, filesystem, working directory, standard
output, spawned processes) is made explicit in `ShellState`.

Library calls are modelled by their documented behaviour:

* `std::getline(stream, s, delim)` : `getline`
* `std::filesystem::path::operator/=` : `pathAppend`
* `std::string::find_first_not_of`, `find_last_not_of`, `substr`
* `fs::exists(path)` : `fsExists`, `fs::current_path()` : `FileSys.cwdError`,
  `fs::current_path(path)` : `FileSys.chdir`, each with the `fs::filesystem_error` it
  may throw
* undefined behaviour and exceptions that nothing catches end an iteration in
  `Outcome.fault`.
-/

namespace Shell

/-! ## Ambient state -/

/-- The part of the filesystem the program observes.  Every query takes the current
working directory first: a relative path is looked up from there. -/
structure FileSys where
  /-- Whether `path` names an existing entry: what `fs::exists(path)` returns when the
  status query reports no error. -/
  pathExists : String → String → Bool
  /-- The `what()` text of the `fs::filesystem_error` that `fs::exists(path)` throws when
  the status query fails with an error other than "not found" (a name that is too long,
  a directory that may not be searched); `none` when `fs::exists` returns. -/
  statError : String → String → Option String
  /-- Observes `access(path, X_OK) == 0`. -/
  accessX : String → String → Bool
  /-- Observes `fs::current_path(path)`: the new working directory, or the `what()` text
  of the `fs::filesystem_error` it throws. -/
  chdir : String → String → Except String String
  /-- The `what()` text of the `fs::filesystem_error` that `fs::current_path()` throws in
  the given working directory; `none` when it returns the directory. -/
  cwdError : String → Option String

/-- The state one loop iteration of `main` works on. -/
structure ShellState where
  /-- Observes `getenv`. -/
  env : String → Option String
  /-- The filesystem. -/
  fsys : FileSys
  /-- The working directory of the process. -/
  cwd : String
  /-- Everything the shell itself has written to `std::cout`. -/
  out : String
  /-- The calls of `executeProgram` so far: resolved path and argument vector. -/
  launched : List (String × List String)

/-- Ways in which an iteration of the loop fails to complete. -/
inductive Fault where
  /-- Element 0 of an empty `std::vector` was read (`tokens[0]`). -/
  | emptyTokens
  /-- A `std::string` was constructed from a null pointer. -/
  | nullString
  /-- A `fs::filesystem_error` with this text left `main` uncaught. -/
  | uncaught (what : String)
deriving DecidableEq, Repr

/-- How one iteration of the `while (true)` loop ends. -/
inductive Outcome where
  /-- The end of the body or a `continue` was reached: the loop prompts again. -/
  | next (s : ShellState)
  /-- A `break` was reached: the loop is left. -/
  | stop (s : ShellState)
  /-- The iteration faulted in state `s`. -/
  | fault (f : Fault) (s : ShellState)

/-- Writes `text` to `std::cout`. -/
def ShellState.print (s : ShellState) (text : String) : ShellState :=
  { s with out := s.out ++ text }

/-! ## `PATH_LIST_SEPARATOR`, `isExecutableFile` -/

/-- The list separator of `PATH` on POSIX. -/
def PATH_LIST_SEPARATOR : Char := ':'

/-- Models `fs::exists(path)`: the answer, or the `what()` text of the
`fs::filesystem_error` it throws. -/
def fsExists (s : ShellState) (path : String) : Except String Bool :=
  match s.fsys.statError s.cwd path with
  | some what => .error what
  | none => .ok (s.fsys.pathExists s.cwd path)

/-- The POSIX branch of `isExecutableFile`: `fs::exists(path) && access(path, X_OK) == 0`.
An exception of `fs::exists` leaves the function. -/
def isExecutableFile (s : ShellState) (path : String) : Except String Bool :=
  match fsExists s path with
  | .error what => .error what
  | .ok found => .ok (found && s.fsys.accessX s.cwd path)

/-! ## `executeProgram` -/

/-- The POSIX branch of `executeProgram`: a child is forked, runs `execv(path, args)`,
and the parent waits for it.  The call is recorded; what the child itself does is outside
the model. -/
def executeProgram (s : ShellState) (path : String) (args : List String) : ShellState :=
  { s with launched := s.launched ++ [(path, args)] }

/-! ## `trim` -/

/-- The value `std::string::npos` of a 64-bit `size_t`. -/
def npos : Nat := 2 ^ 64 - 1

/-- Models `str.find_first_not_of(set)`; `none` stands for `npos`. -/
def find_first_not_of (str set : String) : Option Nat :=
  str.data.findIdx? (fun c => !set.data.contains c)

/-- Models `str.find_last_not_of(set)`; `none` stands for `npos`. -/
def find_last_not_of (str set : String) : Option Nat :=
  (str.data.reverse.findIdx? (fun c => !set.data.contains c)).map
    (fun i => str.data.length - 1 - i)

/-- Models `str.substr(pos, count)` for `pos` within the string. -/
def substr (str : String) (pos count : Nat) : String :=
  String.mk ((str.data.drop pos).take count)

/-- Embeds `trim`.  When `start` is found, `end` is found too and `start ≤ end`, so the
`size_t` subtraction does not wrap. -/
def trim (str : String) : String :=
  match find_first_not_of str " \t" with
  | none => ""
  | some start =>
    let end_ := (find_last_not_of str " \t").getD npos
    substr str start (end_ - start + 1)

/-! ## `tokenize` -/

/-- The local variables of `tokenize`. -/
structure TokState where
  /-- The vector `tokens`. -/
  tokens : List String
  /-- The string `current_token`. -/
  current_token : String
  /-- The flag `inside_quotes`. -/
  inside_quotes : Bool
deriving DecidableEq, Repr

/-- The body of the `for (char c : input)` loop of `tokenize`. -/
def tokenizeStep (st : TokState) (c : Char) : TokState :=
  if c = '\'' then
    { st with inside_quotes := !st.inside_quotes }
  else if c = ' ' ∨ c = '\t' then
    if st.inside_quotes then
      { st with current_token := st.current_token.push c }
    else if st.current_token ≠ "" then
      { st with tokens := st.tokens ++ [st.current_token], current_token := "" }
    else
      st
  else
    { st with current_token := st.current_token.push c }

/-- The code of `tokenize` after its loop: the pending token is flushed. -/
def tokenizeFinish (st : TokState) : List String :=
  if st.current_token ≠ "" then st.tokens ++ [st.current_token] else st.tokens

/-- Embeds `tokenize`. -/
def tokenize (input : String) : List String :=
  tokenizeFinish (input.data.foldl tokenizeStep ⟨[], "", false⟩)

/-! ## `tokenizePath` -/

/-- Models `std::getline(iss, dir, delim)` on the unread characters `rest` of the stream.
With nothing left to read no character is extracted, the stream fails and the call is
`none`.  Otherwise the characters before the first `delim` are stored, and the delimiter,
when there is one, is extracted and dropped. -/
def getline (rest : List Char) (delim : Char) : Option (String × List Char) :=
  match rest with
  | [] => none
  | _ :: _ =>
    some (String.mk (rest.takeWhile (fun c => c ≠ delim)),
          (rest.dropWhile (fun c => c ≠ delim)).drop 1)

/-- The `while (std::getline(iss, dir, separator))` loop of `tokenizePath`.  Each round
with a successful read consumes at least one character, so `fuel` above the number of
unread characters is never used up (`tokenizePathLoop_fuel`). -/
def tokenizePathLoop (separator : Char) : Nat → List Char → List String → List String
  | 0, _, dirs => dirs
  | fuel + 1, rest, dirs =>
    match getline rest separator with
    | none => dirs
    | some (dir, rest') =>
      let dir := if dir = "" then "." else dir
      tokenizePathLoop separator fuel rest' (dirs ++ [dir])

/-- Embeds `tokenizePath`. -/
def tokenizePath (pathEnv : String) (separator : Char) : List String :=
  tokenizePathLoop separator (pathEnv.data.length + 1) pathEnv.data []

/-! ## `getExecutablePath` -/

/-- Models `fs::path(lhs) / p` followed by `.string()` on POSIX: an absolute `p` replaces
`lhs`; otherwise a `/` is added when `lhs` has a filename (it is non-empty and does not
end in `/`), and `p` is appended. -/
def pathAppend (lhs p : String) : String :=
  if p.data.head? = some '/' then p
  else if lhs ≠ "" ∧ lhs.data.getLast? ≠ some '/' then lhs ++ "/" ++ p
  else lhs ++ p

/-- The inner loop `for (auto &&ext : exts)` of `getExecutablePath`, with its early
`return`; an exception of `isExecutableFile` leaves the loop. -/
def searchExts (s : ShellState) (dir command : String) :
    List String → Except String (Option String)
  | [] => .ok none
  | ext :: exts =>
    let full := pathAppend dir (command ++ ext)
    match isExecutableFile s full with
    | .error what => .error what
    | .ok true => .ok (some full)
    | .ok false => searchExts s dir command exts

/-- The outer loop `for (auto &&dir : dirs)` of `getExecutablePath`. -/
def searchDirs (s : ShellState) (command : String) (exts : List String) :
    List String → Except String (Option String)
  | [] => .ok none
  | dir :: dirs =>
    match searchExts s dir command exts with
    | .error what => .error what
    | .ok (some full) => .ok (some full)
    | .ok none => searchDirs s command exts dirs

/-- The extension list `exts` of the POSIX build. -/
def exts : List String := [""]

/-- Embeds `getExecutablePath`: the path it returns, the empty string being the absence
marker, or the `what()` text of the `fs::filesystem_error` that leaves it. -/
def getExecutablePath (s : ShellState) (command : String) : Except String String :=
  match s.env "PATH" with
  | none => .ok ""
  | some path_env =>
    let dirs := tokenizePath path_env PATH_LIST_SEPARATOR
    match searchDirs s command exts dirs with
    | .error what => .error what
    | .ok found => .ok (found.getD "")

/-! ## `main` -/

/-- The set `builtins`. -/
def builtins : List String := ["type", "exit", "echo", "pwd", "cd"]

/-- The text the `echo` branch writes before `std::endl`: the loop over `tokens[1..]`
that puts a space after every token but the last. -/
def echoText : List String → String
  | [] => ""
  | [t] => t
  | t :: rest => t ++ " " ++ echoText rest

/-- What one round of the loop of the `type` branch writes for the argument `cmd`, or the
`what()` text of the exception that leaves `getExecutablePath` before anything is written
for `cmd`. -/
def typeReport (s : ShellState) (cmd : String) : Except String String :=
  if builtins.contains cmd then
    .ok (cmd ++ " is a shell builtin" ++ "\n")
  else
    match getExecutablePath s cmd with
    | .error what => .error what
    | .ok path =>
      if path ≠ "" then .ok (cmd ++ " is " ++ path ++ "\n")
      else .ok (cmd ++ ": not found" ++ "\n")

/-- The loop of the `type` branch over `tokens[1..]`: each report is written as soon as
it is made, and an exception leaves `main` with the earlier reports written. -/
def typeLoop (s : ShellState) : List String → Outcome
  | [] => .next s
  | cmd :: rest =>
    match typeReport s cmd with
    | .error what => .fault (.uncaught what) s
    | .ok text => typeLoop (s.print text) rest

/-- The `pwd` branch of `main`: `fs::current_path()` is outside any `try`. -/
def pwdBranch (s : ShellState) : Outcome :=
  match s.fsys.cwdError s.cwd with
  | some what => .fault (.uncaught what) s
  | none => .next (s.print (s.cwd ++ "\n"))

/-- A call `fs::current_path(p)` outside any `try`: an exception leaves `main`. -/
def changeDir (s : ShellState) (p : String) : Outcome :=
  match s.fsys.chdir s.cwd p with
  | .ok dir => .next { s with cwd := dir }
  | .error what => .fault (.uncaught what) s

/-- The `cd` branch of `main`, for the arguments `parts = tokens[1..]`. -/
def cdBranch (s : ShellState) (parts : List String) : Outcome :=
  if parts.length + 1 = 1 then
    changeDir s "/"
  else if parts.length = 1 ∧ parts.head? = some "~" then
    match s.env "HOME" with
    | none =>
      -- the message is written, then `std::string string_env(home_env)` is built from
      -- the null pointer
      .fault .nullString (s.print "cd: HOME env not found")
    | some string_env =>
      match s.fsys.chdir s.cwd string_env with
      | .ok dir => .next { s with cwd := dir }
      | .error what => .next (s.print ("cd: " ++ what ++ "\n"))
  else
    let p := parts.foldl pathAppend ""
    -- `fs::exists(p)` is outside any `try`
    match fsExists s p with
    | .error what => .fault (.uncaught what) s
    | .ok true => changeDir s p
    | .ok false => .next (s.print ("cd: " ++ p ++ ": No such file or directory\n"))

/-- The dispatch of `main` on `tokens`, from the read of `tokens[0]` to the end of the
loop body. -/
def dispatch (s : ShellState) (tokens : List String) : Outcome :=
  match tokens with
  | [] => .fault .emptyTokens s
  | t0 :: args =>
    if t0 = "exit" then .stop s
    else if t0 = "echo" then .next (s.print (echoText args ++ "\n"))
    else if t0 = "type" then typeLoop s args
    else if t0 = "pwd" then pwdBranch s
    else if t0 = "cd" then cdBranch s args
    else
      match getExecutablePath s t0 with
      | .error what => .fault (.uncaught what) s
      | .ok path =>
        if path = "" then .next (s.print (t0 ++ ": command not found" ++ "\n"))
        else .next (executeProgram s path tokens)

/-- The body of the loop of `main` once a line `command` has been read. -/
def processLine (s : ShellState) (command : String) : Outcome :=
  let command := trim command
  if find_first_not_of command " \t" = none then .next s
  else dispatch s (tokenize command)

/-- The loop of `main` over the lines standard input still holds: the prompt is written,
a line is read, and the loop ends at end of input, at a `break` or at a fault. -/
def run (s : ShellState) : List String → Outcome
  | [] => .stop (s.print "$ ")
  | line :: lines =>
    match processLine (s.print "$ ") line with
    | .next s' => run s' lines
    | o => o

/-! ## Specification vocabulary -/

/-- Every character of `g` is a space or a tab. -/
def BlankRun (g : String) : Prop := ∀ c ∈ g.data, c = ' ' ∨ c = '\t'

/-- A word: non-empty, and free of space, tab and single-quote characters. -/
def PlainWord (w : String) : Prop :=
  w ≠ "" ∧ ∀ c ∈ w.data, c ≠ ' ' ∧ c ≠ '\t' ∧ c ≠ '\''

/-- The string has no single-quote character. -/
def QuoteFree (q : String) : Prop := ∀ c ∈ q.data, c ≠ '\''

instance (g : String) : Decidable (BlankRun g) := by
  unfold BlankRun; infer_instance

instance (w : String) : Decidable (PlainWord w) := by
  unfold PlainWord; infer_instance

instance (q : String) : Decidable (QuoteFree q) := by
  unfold QuoteFree; infer_instance

/-- The line `w₁ g₁ w₂ g₂ … wₙ trail`: the words in order, each followed by its gap, the
last one by `trail`.  With no words the line is empty. -/
def spaced (words gaps : List String) (trail : String) : String :=
  String.join (List.zipWith (fun w g => w ++ g) words (gaps ++ [trail]))

/-- No finished token is empty, and neither a finished nor the pending token holds a
quote character. -/
def TokState.Clean (st : TokState) : Prop :=
  (∀ t ∈ st.tokens, t ≠ "" ∧ '\'' ∉ t.data) ∧ '\'' ∉ st.current_token.data

/-- The state is outside quotes and no token, finished or pending, holds a space or a
tab. -/
def TokState.Unquoted (st : TokState) : Prop :=
  st.inside_quotes = false ∧ (∀ t ∈ st.tokens, ' ' ∉ t.data ∧ '\t' ∉ t.data) ∧
    ' ' ∉ st.current_token.data ∧ '\t' ∉ st.current_token.data

/-! ## Concrete states -/

/-- A filesystem with the executables `/usr/bin/foo`, `/bin/foo` and `/bin/echo`, and the
directories `/`, `/usr/bin` and `/bin`.  The status query fails for a path of more than
255 characters. -/
def sampleFileSys : FileSys where
  pathExists := fun _ p =>
    p = "/usr/bin/foo" || p = "/bin/foo" || p = "/bin/echo" || p = "/" || p = "/usr/bin" ||
      p = "/bin"
  statError := fun _ p =>
    if 255 < p.length then
      some ("filesystem error: status: File name too long [" ++ p ++ "]")
    else none
  accessX := fun _ p =>
    p = "/usr/bin/foo" || p = "/bin/foo" || p = "/bin/echo" || p = "/" || p = "/usr/bin" ||
      p = "/bin"
  chdir := fun _ p =>
    if p = "/" ∨ p = "/usr/bin" ∨ p = "/bin" then .ok p
    else .error "filesystem error: cannot set current path: Not a directory"
  cwdError := fun _ => none

/-- A state with `PATH=/usr/bin:/bin`, `HOME` unset and the working directory `/bin`. -/
def sampleState : ShellState where
  env := fun name => if name = "PATH" then some "/usr/bin:/bin" else none
  fsys := sampleFileSys
  cwd := "/bin"
  out := ""
  launched := []

/-- A filesystem without entries in which no directory can be entered, the root
included, and the working directory cannot be named. -/
def lockedFileSys : FileSys where
  pathExists := fun _ _ => false
  statError := fun _ _ => none
  accessX := fun _ _ => false
  chdir := fun _ _ => .error "filesystem error: cannot set current path: Permission denied"
  cwdError := fun _ =>
    some "filesystem error: cannot get current path: No such file or directory"

/-- A state on `lockedFileSys`, with `PATH` and `HOME` unset. -/
def lockedState : ShellState where
  env := fun _ => none
  fsys := lockedFileSys
  cwd := "/tmp/gone"
  out := ""
  launched := []

/-! ## Vocabulary for the dispatcher and the loop -/

/-- The state an outcome carries. -/
def Outcome.state : Outcome → ShellState
  | .next s => s
  | .stop s => s
  | .fault _ s => s

/-- The branches of the `if` / `else if` chain of `main` on `tokens[0]`. -/
inductive Branch where
  /-- The branch of `tokens[0] == "exit"`. -/
  | exit
  /-- The branch of `tokens[0] == "echo"`. -/
  | echo
  /-- The branch of `tokens[0] == "type"`. -/
  | type
  /-- The branch of `tokens[0] == "pwd"`. -/
  | pwd
  /-- The branch of `tokens[0] == "cd"`. -/
  | cd
  /-- The final `else`: the token names an external command. -/
  | external
deriving DecidableEq, Repr

/-- The branch of the chain of `main` that the first token `t0` selects: the comparisons
of `main`, in their order. -/
def branchOf (t0 : String) : Branch :=
  if t0 = "exit" then .exit
  else if t0 = "echo" then .echo
  else if t0 = "type" then .type
  else if t0 = "pwd" then .pwd
  else if t0 = "cd" then .cd
  else .external

/-- The first token of the line, as `main` tokenizes it, is `exit`. -/
def IsExitLine (line : String) : Prop := (tokenize (trim line)).head? = some "exit"

instance (line : String) : Decidable (IsExitLine line) := by
  unfold IsExitLine; infer_instance

/-- Follows the words of the specification, not the code: the characters of a line with
every single quote deleted and every space or tab outside a quoted region deleted.
`inside` tells whether the first character lies in a quoted region. -/
def unquotedText (inside : Bool) : List Char → List Char
  | [] => []
  | c :: cs =>
    if c = '\'' then unquotedText (!inside) cs
    else if (c = ' ' ∨ c = '\t') ∧ inside = false then unquotedText inside cs
    else c :: unquotedText inside cs

/-! ## Strings -/

theorem data_push (s : String) (c : Char) : (s.push c).data = s.data ++ [c] := by
  cases s; rfl

theorem ne_empty_iff (s : String) : s ≠ "" ↔ s.data ≠ [] := by
  cases s with
  | mk d =>
    constructor
    · intro h hd
      apply h
      simp at hd
      rw [hd]
    · intro h hs
      apply h
      have := congrArg String.data hs
      simpa using this

theorem push_ne_empty (s : String) (c : Char) : s.push c ≠ "" := by
  rw [ne_empty_iff, data_push]; simp

theorem append_mk_cons (s : String) (c : Char) (cs : List Char) :
    s ++ String.mk (c :: cs) = s.push c ++ String.mk cs := by
  apply String.ext
  simp [data_push]

theorem append_mk_nil (s : String) : s ++ String.mk [] = s := by
  apply String.ext
  simp

/-! ## The loop of `tokenize` -/

/-- Characters inside a quoted region, none of them a quote, are all appended. -/
theorem run_inside (cs : List Char) (hq : ∀ c ∈ cs, c ≠ '\'') (toks : List String)
    (cur : String) :
    cs.foldl tokenizeStep ⟨toks, cur, true⟩ = ⟨toks, cur ++ String.mk cs, true⟩ := by
  induction cs generalizing cur with
  | nil => simp [append_mk_nil]
  | cons c cs ih =>
    have hc : c ≠ '\'' := hq c (by simp)
    have hstep : tokenizeStep ⟨toks, cur, true⟩ c = ⟨toks, cur.push c, true⟩ := by
      unfold tokenizeStep
      simp only [hc, if_false, if_true]
      split <;> rfl
    rw [List.foldl_cons, hstep, ih (fun d hd => hq d (by simp [hd])), append_mk_cons]

/-- Characters of a word (no quote, space or tab) are all appended. -/
theorem run_word (cs : List Char) (hw : ∀ c ∈ cs, c ≠ ' ' ∧ c ≠ '\t' ∧ c ≠ '\'')
    (toks : List String) (cur : String) (b : Bool) :
    cs.foldl tokenizeStep ⟨toks, cur, b⟩ = ⟨toks, cur ++ String.mk cs, b⟩ := by
  induction cs generalizing cur with
  | nil => simp [append_mk_nil]
  | cons c cs ih =>
    obtain ⟨h1, h2, h3⟩ := hw c (by simp)
    have hstep : tokenizeStep ⟨toks, cur, b⟩ c = ⟨toks, cur.push c, b⟩ := by
      unfold tokenizeStep
      simp [h1, h2, h3]
    rw [List.foldl_cons, hstep, ih (fun d hd => hw d (by simp [hd])), append_mk_cons]

/-- Spaces and tabs outside quotes leave a state with no pending token as it is. -/
theorem run_blank_idle (cs : List Char) (hb : ∀ c ∈ cs, c = ' ' ∨ c = '\t')
    (toks : List String) :
    cs.foldl tokenizeStep ⟨toks, "", false⟩ = ⟨toks, "", false⟩ := by
  induction cs with
  | nil => rfl
  | cons c cs ih =>
    have hstep : tokenizeStep ⟨toks, "", false⟩ c = ⟨toks, "", false⟩ := by
      unfold tokenizeStep
      rcases hb c (by simp) with h | h <;> subst h <;> simp
    rw [List.foldl_cons, hstep, ih (fun d hd => hb d (by simp [hd]))]

/-- A non-empty run of spaces and tabs outside quotes flushes the pending token. -/
theorem run_blank_flush (cs : List Char) (hb : ∀ c ∈ cs, c = ' ' ∨ c = '\t') (hne : cs ≠ [])
    (toks : List String) (cur : String) (hcur : cur ≠ "") :
    cs.foldl tokenizeStep ⟨toks, cur, false⟩ = ⟨toks ++ [cur], "", false⟩ := by
  cases cs with
  | nil => exact absurd rfl hne
  | cons c cs =>
    have hstep : tokenizeStep ⟨toks, cur, false⟩ c = ⟨toks ++ [cur], "", false⟩ := by
      unfold tokenizeStep
      rcases hb c (by simp) with h | h <;> subst h <;> simp [hcur]
    rw [List.foldl_cons, hstep]
    exact run_blank_idle cs (fun d hd => hb d (by simp [hd])) _

/-! ## Lines of words and gaps -/

theorem spaced_nil (gaps : List String) (trail : String) : spaced [] gaps trail = "" := by
  simp [spaced, String.join]

theorem spaced_single_data (w trail : String) :
    (spaced [w] [] trail).data = w.data ++ trail.data := by
  simp [spaced]

theorem spaced_cons_data (w : String) (ws : List String) (g : String) (gs : List String)
    (trail : String) :
    (spaced (w :: ws) (g :: gs) trail).data = w.data ++ g.data ++ (spaced ws gs trail).data := by
  simp [spaced]

theorem empty_append_mk_data (w : String) : "" ++ String.mk w.data = w := by
  apply String.ext; simp

/-- From a state outside quotes with no pending token, a line of words and gaps adds
exactly the words. -/
theorem finish_spaced (words : List String) :
    ∀ (gaps : List String) (trail : String) (toks : List String),
      (∀ w ∈ words, PlainWord w) → (∀ g ∈ gaps, g ≠ "" ∧ BlankRun g) →
      gaps.length = words.length - 1 → BlankRun trail →
      tokenizeFinish ((spaced words gaps trail).data.foldl tokenizeStep ⟨toks, "", false⟩) =
        toks ++ words := by
  induction words with
  | nil =>
    intro gaps trail toks _ _ _ _
    simp [spaced_nil, tokenizeFinish]
  | cons w ws ih =>
    intro gaps trail toks hw hg hlen ht
    obtain ⟨hwne, hwc⟩ := hw w (by simp)
    cases ws with
    | nil =>
      have hgaps : gaps = [] := by
        apply List.eq_nil_of_length_eq_zero
        simpa using hlen
      subst hgaps
      rw [spaced_single_data, List.foldl_append, run_word w.data hwc, empty_append_mk_data]
      by_cases htr : trail.data = []
      · rw [htr, List.foldl_nil]
        simp only [tokenizeFinish]
        rw [if_pos hwne]
      · rw [run_blank_flush trail.data ht htr _ _ hwne]
        simp [tokenizeFinish]
    | cons w2 ws2 =>
      cases gaps with
      | nil => simp at hlen
      | cons g gs =>
        obtain ⟨hgne, hgb⟩ := hg g (by simp)
        rw [spaced_cons_data, List.foldl_append, List.foldl_append, run_word w.data hwc,
          empty_append_mk_data,
          run_blank_flush g.data hgb ((ne_empty_iff g).1 hgne) _ _ hwne,
          ih gs trail _ (fun v hv => hw v (by simp [hv])) (fun v hv => hg v (by simp [hv]))
            (by simpa using hlen) ht]
        simp

/-- Tokenizing a line of plain words: leading blanks, then the words with non-empty gaps
between them, then trailing blanks. -/
theorem tokenize_spaced (lead : String) (words gaps : List String) (trail : String)
    (hlead : BlankRun lead) (hw : ∀ w ∈ words, PlainWord w)
    (hg : ∀ g ∈ gaps, g ≠ "" ∧ BlankRun g) (hlen : gaps.length = words.length - 1)
    (ht : BlankRun trail) :
    tokenize (lead ++ spaced words gaps trail) = words := by
  unfold tokenize
  rw [String.data_append, List.foldl_append, run_blank_idle lead.data hlead,
    finish_spaced words gaps trail _ hw hg hlen ht]
  simp

/-- A quoted text `q` without quote characters, read from a state outside quotes, is
appended to the pending token in full, and the state is outside quotes again. -/
theorem run_quoted (q : List Char) (hq : ∀ c ∈ q, c ≠ '\'') (toks : List String)
    (cur : String) :
    (('\'' :: q) ++ ['\'']).foldl tokenizeStep ⟨toks, cur, false⟩ =
      ⟨toks, cur ++ String.mk q, false⟩ := by
  have h1 : tokenizeStep ⟨toks, cur, false⟩ '\'' = ⟨toks, cur, true⟩ := by
    simp [tokenizeStep]
  simp only [List.foldl_append, List.foldl_cons, List.foldl_nil, h1, run_inside q hq]
  simp [tokenizeStep]

/-! ## Invariants of the loop of `tokenize` -/

theorem step_clean (st : TokState) (c : Char) (h : st.Clean) : (tokenizeStep st c).Clean := by
  obtain ⟨ht, hc⟩ := h
  unfold tokenizeStep
  split
  · exact ⟨ht, hc⟩
  · rename_i hq
    split
    · split
      · refine ⟨ht, ?_⟩
        simp only [data_push, List.mem_append, List.mem_singleton, not_or]
        exact ⟨hc, fun h => hq h.symm⟩
      · split
        · rename_i hne
          refine ⟨?_, by simp⟩
          intro t htm
          simp only [List.mem_append, List.mem_singleton] at htm
          rcases htm with htm | htm
          · exact ht t htm
          · subst htm; exact ⟨hne, hc⟩
        · exact ⟨ht, hc⟩
    · refine ⟨ht, ?_⟩
      simp only [data_push, List.mem_append, List.mem_singleton, not_or]
      exact ⟨hc, fun h => hq h.symm⟩

theorem run_clean (cs : List Char) (st : TokState) (h : st.Clean) :
    (cs.foldl tokenizeStep st).Clean := by
  induction cs generalizing st with
  | nil => exact h
  | cons c cs ih => exact ih _ (step_clean st c h)

theorem step_unquoted (st : TokState) (c : Char) (hc : c ≠ '\'') (h : st.Unquoted) :
    (tokenizeStep st c).Unquoted := by
  obtain ⟨hout, ht, hs, htab⟩ := h
  unfold tokenizeStep
  rw [if_neg hc]
  split
  · rw [if_neg (by simp [hout])]
    split
    · refine ⟨hout, ?_, by simp, by simp⟩
      intro t htm
      simp only [List.mem_append, List.mem_singleton] at htm
      rcases htm with htm | htm
      · exact ht t htm
      · subst htm; exact ⟨hs, htab⟩
    · exact ⟨hout, ht, hs, htab⟩
  · rename_i hb
    refine ⟨hout, ht, ?_, ?_⟩
    · simp only [data_push, List.mem_append, List.mem_singleton, not_or]
      exact ⟨hs, fun h => hb (Or.inl h.symm)⟩
    · simp only [data_push, List.mem_append, List.mem_singleton, not_or]
      exact ⟨htab, fun h => hb (Or.inr h.symm)⟩

theorem run_unquoted (cs : List Char) (hq : ∀ c ∈ cs, c ≠ '\'') (st : TokState)
    (h : st.Unquoted) : (cs.foldl tokenizeStep st).Unquoted := by
  induction cs generalizing st with
  | nil => exact h
  | cons c cs ih =>
    exact ih (fun d hd => hq d (by simp [hd])) _ (step_unquoted st c (hq c (by simp)) h)

theorem mem_finish (st : TokState) (t : String) (h : t ∈ tokenizeFinish st) :
    t ∈ st.tokens ∨ (t = st.current_token ∧ st.current_token ≠ "") := by
  unfold tokenizeFinish at h
  split at h
  · rename_i hne
    simp only [List.mem_append, List.mem_singleton] at h
    rcases h with h | h
    · exact Or.inl h
    · exact Or.inr ⟨h, hne⟩
  · exact Or.inl h

/-- The quote flag after a run: flipped once for every quote character. -/
theorem run_flag (cs : List Char) (st : TokState) :
    (cs.foldl tokenizeStep st).inside_quotes =
      xor st.inside_quotes (decide (cs.count '\'' % 2 = 1)) := by
  induction cs generalizing st with
  | nil => simp
  | cons c cs ih =>
    rw [List.foldl_cons, ih]
    by_cases hc : c = '\''
    · subst hc
      have h1 : (tokenizeStep st '\'').inside_quotes = !st.inside_quotes := by
        simp [tokenizeStep]
      rw [h1, List.count_cons_self]
      have hpar : decide (List.count '\'' cs % 2 = 1) =
          !decide ((List.count '\'' cs + 1) % 2 = 1) := by
        rcases Nat.mod_two_eq_zero_or_one (List.count '\'' cs) with h | h
        · have h2 : (List.count '\'' cs + 1) % 2 = 1 := by omega
          simp [h, h2]
        · have h2 : (List.count '\'' cs + 1) % 2 = 0 := by omega
          simp [h, h2]
      cases st.inside_quotes <;> simp [hpar]
    · have h1 : (tokenizeStep st c).inside_quotes = st.inside_quotes := by
        unfold tokenizeStep
        rw [if_neg hc]
        split
        · split
          · rfl
          · split <;> rfl
        · rfl
      rw [h1, List.count_cons_of_ne (fun h => hc h.symm)]

/-! ## The `while` loop of `tokenizePath` -/

theorem getline_length (rest : List Char) (delim : Char) (dir : String) (rest' : List Char)
    (h : getline rest delim = some (dir, rest')) : rest'.length < rest.length := by
  cases rest with
  | nil => simp [getline] at h
  | cons c cs =>
    simp only [getline, Option.some.injEq, Prod.mk.injEq] at h
    rw [← h.2, List.length_drop]
    have := (List.dropWhile_sublist (fun x => x ≠ delim) (l := c :: cs)).length_le
    simp only [List.length_cons] at this ⊢
    omega

/-- The loop of `tokenizePath` ends by a failed read, not by lack of fuel: any fuel above
the number of unread characters gives the same directories. -/
theorem tokenizePathLoop_fuel (separator : Char) (fuel : Nat) :
    ∀ (rest : List Char) (dirs : List String), rest.length < fuel →
      tokenizePathLoop separator fuel rest dirs =
        tokenizePathLoop separator (rest.length + 1) rest dirs := by
  induction fuel using Nat.strong_induction_on with
  | _ fuel ih =>
    intro rest dirs hlt
    cases fuel with
    | zero => omega
    | succ n =>
      cases hg : getline rest separator with
      | none => simp [tokenizePathLoop, hg]
      | some pr =>
        obtain ⟨dir, rest'⟩ := pr
        have hlen := getline_length rest separator dir rest' hg
        simp only [tokenizePathLoop, hg]
        rw [ih n (by omega) rest' _ (by omega), ih rest.length (by omega) rest' _ hlen]

/-! ## The search of `getExecutablePath` -/

theorem searchExts_posix (s : ShellState) (dir command : String) :
    searchExts s dir command exts =
      match isExecutableFile s (pathAppend dir command) with
      | .error what => .error what
      | .ok true => .ok (some (pathAppend dir command))
      | .ok false => .ok none := by
  simp only [exts, searchExts, String.append_empty]

/-- A hit of the search is the candidate of the first directory whose candidate passes
the test; the tests of the candidates before it completed and failed. -/
theorem searchDirs_some (s : ShellState) (command : String) (dirs : List String)
    (full : String) (h : searchDirs s command exts dirs = .ok (some full)) :
    ∃ (i : Nat) (d : String), dirs[i]? = some d ∧ full = pathAppend d command ∧
      isExecutableFile s (pathAppend d command) = .ok true ∧
      ∀ (j : Nat) (e : String), j < i → dirs[j]? = some e →
        isExecutableFile s (pathAppend e command) = .ok false := by
  induction dirs with
  | nil => simp [searchDirs] at h
  | cons dir dirs ih =>
    simp only [searchDirs, searchExts_posix] at h
    cases hx : isExecutableFile s (pathAppend dir command) with
    | error what => simp [hx] at h
    | ok b =>
      cases b with
      | true =>
        simp only [hx, Except.ok.injEq, Option.some.injEq] at h
        refine ⟨0, dir, by simp, h.symm, hx, ?_⟩
        intro j e hj
        omega
      | false =>
        simp only [hx] at h
        obtain ⟨i, d, hd, hfull, hexec, hmin⟩ := ih h
        refine ⟨i + 1, d, by simpa using hd, hfull, hexec, ?_⟩
        intro j e hj he
        cases j with
        | zero =>
          simp only [List.getElem?_cons_zero, Option.some.injEq] at he
          subst he
          exact hx
        | succ k =>
          exact hmin k e (by omega) (by simpa using he)

/-! ## The `echo` branch -/

theorem intercalate_go_eq (rest : List String) :
    ∀ (acc t : String),
      String.intercalate.go (acc ++ t) " " rest = acc ++ echoText (t :: rest) := by
  induction rest with
  | nil => intro acc t; simp [String.intercalate.go, echoText]
  | cons a as ih =>
    intro acc t
    have h := ih (acc ++ t ++ " ") a
    simp only [String.intercalate.go, echoText]
    rw [h]
    simp [String.append_assoc]

/-- The text of the `echo` loop is its arguments joined by single spaces. -/
theorem echoText_eq_intercalate (args : List String) :
    echoText args = " ".intercalate args := by
  cases args with
  | nil => rfl
  | cons t rest =>
    have h := intercalate_go_eq rest "" t
    simp only [String.intercalate]
    rw [← String.empty_append t, h]
    simp

/-! ## The dispatcher -/

theorem blank_of_find_none (c : String) (h : find_first_not_of c " \t" = none) :
    BlankRun c := by
  unfold find_first_not_of at h
  rw [List.findIdx?_eq_none_iff] at h
  intro x hx
  have := h x hx
  simp at this
  by_cases hx1 : x = ' '
  · exact Or.inl hx1
  · exact Or.inr (this hx1)

theorem tokenize_blank (line : String) (hb : BlankRun line) : tokenize line = [] := by
  unfold tokenize
  rw [run_blank_idle line.data hb]
  rfl

/-- A line whose first token is `exit` ends the loop in the state it was read in. -/
theorem processLine_exit (s : ShellState) (line : String) (h : IsExitLine line) :
    processLine s line = .stop s := by
  unfold IsExitLine at h
  have hfind : find_first_not_of (trim line) " \t" ≠ none := by
    intro hn
    rw [tokenize_blank _ (blank_of_find_none _ hn)] at h
    simp at h
  cases htok : tokenize (trim line) with
  | nil => rw [htok] at h; simp at h
  | cons t0 args =>
    rw [htok] at h
    simp only [List.head?_cons, Option.some.injEq] at h
    subst h
    simp only [processLine, hfind, if_false, htok, dispatch, if_true]

/-- The loop of `type` launches nothing. -/
theorem typeLoop_launched (xs : List String) :
    ∀ s : ShellState, (typeLoop s xs).state.launched = s.launched := by
  induction xs with
  | nil => intro s; rfl
  | cons x xs ih =>
    intro s
    simp only [typeLoop]
    cases typeReport s x with
    | error what => rfl
    | ok text => exact ih (s.print text)

theorem dispatch_type (s : ShellState) (args : List String) :
    dispatch s ("type" :: args) = typeLoop s args := by
  have hx : ("type" : String) ≠ "exit" := by decide
  have he : ("type" : String) ≠ "echo" := by decide
  simp only [dispatch, hx, he, if_false, if_true]

theorem dispatch_cd (s : ShellState) (parts : List String) :
    dispatch s ("cd" :: parts) = cdBranch s parts := by
  have h1 : ("cd" : String) ≠ "exit" := by decide
  have h2 : ("cd" : String) ≠ "echo" := by decide
  have h3 : ("cd" : String) ≠ "type" := by decide
  have h4 : ("cd" : String) ≠ "pwd" := by decide
  simp only [dispatch, h1, h2, h3, h4, if_false, if_true]

theorem dispatch_pwd (s : ShellState) (args : List String) :
    dispatch s ("pwd" :: args) = pwdBranch s := by
  have h1 : ("pwd" : String) ≠ "exit" := by decide
  have h2 : ("pwd" : String) ≠ "echo" := by decide
  have h3 : ("pwd" : String) ≠ "type" := by decide
  simp only [dispatch, h1, h2, h3, if_false, if_true]

/-- The final `else` of `main`, for a first token that is none of the five names. -/
theorem dispatch_external (s : ShellState) (t0 : String) (args : List String)
    (h : branchOf t0 = .external) :
    dispatch s (t0 :: args) =
      match getExecutablePath s t0 with
      | .error what => .fault (.uncaught what) s
      | .ok path =>
        if path = "" then .next (s.print (t0 ++ ": command not found" ++ "\n"))
        else .next (executeProgram s path (t0 :: args)) := by
  unfold branchOf at h
  have h1 : t0 ≠ "exit" := by intro e; simp [e] at h
  have h2 : t0 ≠ "echo" := by intro e; simp [e] at h
  have h3 : t0 ≠ "type" := by intro e; simp [e] at h
  have h4 : t0 ≠ "pwd" := by intro e; simp [e] at h
  have h5 : t0 ≠ "cd" := by intro e; simp [e] at h
  simp only [dispatch, h1, h2, h3, h4, h5, if_false]

theorem branchOf_external_iff (t0 : String) :
    branchOf t0 = .external ↔ t0 ∉ builtins := by
  unfold branchOf builtins
  by_cases h1 : t0 = "exit"
  · simp [h1]
  by_cases h2 : t0 = "echo"
  · simp [h2]
  by_cases h3 : t0 = "type"
  · simp [h3]
  by_cases h4 : t0 = "pwd"
  · simp [h4]
  by_cases h5 : t0 = "cd"
  · simp [h5]
  simp [h1, h2, h3, h4, h5]

/-! ## Directories and candidates of the search -/

theorem tokenizePathLoop_ne_empty (separator : Char) (fuel : Nat) :
    ∀ (rest : List Char) (dirs : List String), (∀ d ∈ dirs, d ≠ "") →
      ∀ d ∈ tokenizePathLoop separator fuel rest dirs, d ≠ "" := by
  induction fuel with
  | zero => intro rest dirs h; simpa [tokenizePathLoop] using h
  | succ n ih =>
    intro rest dirs h
    cases hg : getline rest separator with
    | none => simpa [tokenizePathLoop, hg] using h
    | some pr =>
      obtain ⟨dir, rest'⟩ := pr
      simp only [tokenizePathLoop, hg]
      apply ih
      intro d hd
      rcases List.mem_append.1 hd with hd | hd
      · exact h d hd
      · simp only [List.mem_singleton] at hd
        subst hd
        by_cases he : dir = ""
        · simp [he]
        · simp [he]

/-- No directory of the split `PATH` is the empty string. -/
theorem tokenizePath_ne_empty (pathEnv : String) (separator : Char) :
    ∀ d ∈ tokenizePath pathEnv separator, d ≠ "" :=
  tokenizePathLoop_ne_empty separator _ _ _ (by simp)

/-- A candidate `dir / command` of a non-empty directory holds a `/`. -/
theorem slash_mem_pathAppend (d c : String) (hd : d ≠ "") : '/' ∈ (pathAppend d c).data := by
  unfold pathAppend
  by_cases h1 : c.data.head? = some '/'
  · rw [if_pos h1]
    exact List.mem_of_mem_head? h1
  · rw [if_neg h1]
    by_cases h2 : d ≠ "" ∧ d.data.getLast? ≠ some '/'
    · rw [if_pos h2]
      simp
    · rw [if_neg h2]
      have h3 : d.data.getLast? = some '/' := by
        by_contra h3
        exact h2 ⟨hd, h3⟩
      have h4 : '/' ∈ d.data := List.mem_of_getLast?_eq_some h3
      simp [h4]

theorem searchDirs_none_iff (s : ShellState) (command : String) (dirs : List String) :
    searchDirs s command exts dirs = .ok none ↔
      ∀ d ∈ dirs, isExecutableFile s (pathAppend d command) = .ok false := by
  induction dirs with
  | nil => simp [searchDirs]
  | cons dir dirs ih =>
    simp only [searchDirs, searchExts_posix, List.mem_cons, forall_eq_or_imp]
    cases hx : isExecutableFile s (pathAppend dir command) with
    | error what => simp
    | ok b =>
      cases b with
      | true => simp
      | false => simpa using ih

/-- What `getExecutablePath` does when `PATH` is set: it returns the absence marker when
the test of every candidate completes and fails, returns the candidate of a directory of
`PATH` that passes, or is left by an exception. -/
theorem getExecutablePath_cases (s : ShellState) (command path_env : String)
    (hp : s.env "PATH" = some path_env) :
    (getExecutablePath s command = .ok "" ∧
        ∀ d ∈ tokenizePath path_env PATH_LIST_SEPARATOR,
          isExecutableFile s (pathAppend d command) = .ok false) ∨
      (∃ d ∈ tokenizePath path_env PATH_LIST_SEPARATOR,
        getExecutablePath s command = .ok (pathAppend d command) ∧
          isExecutableFile s (pathAppend d command) = .ok true) ∨
      ∃ what, getExecutablePath s command = .error what := by
  unfold getExecutablePath
  simp only [hp]
  cases hs : searchDirs s command exts (tokenizePath path_env PATH_LIST_SEPARATOR) with
  | error what => exact Or.inr (Or.inr ⟨what, rfl⟩)
  | ok found =>
    cases found with
    | none => exact Or.inl ⟨rfl, (searchDirs_none_iff s command _).1 hs⟩
    | some full =>
      obtain ⟨i, d, hd, hfull, hexec, _⟩ := searchDirs_some s command _ full hs
      exact Or.inr (Or.inl ⟨d, List.getElem?_mem hd, by simp [hfull], hexec⟩)

/-! ## The tokens and the text of the line -/

/-- The tokens of a run, concatenated: the finished tokens, the pending token and what
the specification keeps of the characters read. -/
theorem join_finish_run (cs : List Char) :
    ∀ st : TokState,
      (String.join (tokenizeFinish (cs.foldl tokenizeStep st))).data =
        (String.join st.tokens).data ++ st.current_token.data ++
          unquotedText st.inside_quotes cs := by
  induction cs with
  | nil =>
    intro st
    simp only [List.foldl_nil, tokenizeFinish, unquotedText, List.append_nil]
    by_cases hc : st.current_token = ""
    · simp [hc]
    · simp [hc]
  | cons c cs ih =>
    intro st
    rw [List.foldl_cons, ih]
    unfold tokenizeStep
    by_cases hq : c = '\''
    · simp [hq, unquotedText]
    · by_cases hb : c = ' ' ∨ c = '\t'
      · by_cases hin : st.inside_quotes = true
        · simp [hq, hb, hin, unquotedText, data_push]
        · by_cases hcur : st.current_token = ""
          · simp [hq, hb, hin, hcur, unquotedText]
          · simp [hq, hb, hin, hcur, unquotedText]
      · simp [hq, hb, unquotedText, data_push]


/-! ## `trim` -/

/-- A hit of `findIdx?` splits the list at the first element that satisfies `p`. -/
theorem findIdx?_split (p : Char → Bool) (l : List Char) :
    ∀ i : Nat, l.findIdx? p = some i →
      ∃ (pre : List Char) (x : Char) (post : List Char),
        l = pre ++ x :: post ∧ pre.length = i ∧ (∀ c ∈ pre, p c = false) ∧ p x = true := by
  induction l with
  | nil => intro i h; simp at h
  | cons a l ih =>
    intro i h
    rw [List.findIdx?_cons] at h
    by_cases ha : p a = true
    · rw [if_pos ha] at h
      simp only [Option.some.injEq] at h
      exact ⟨[], a, l, rfl, by simpa using h, by simp, ha⟩
    · rw [if_neg ha, List.findIdx?_succ] at h
      cases hj : l.findIdx? p with
      | none => rw [hj] at h; simp at h
      | some j =>
        rw [hj] at h
        simp only [Option.map_some', Option.some.injEq] at h
        obtain ⟨pre, x, post, hl, hlen, hpre, hx⟩ := ih j hj
        refine ⟨a :: pre, x, post, by rw [hl]; rfl, by simp [hlen, h], ?_, hx⟩
        intro c hc
        rcases List.mem_cons.1 hc with hc | hc
        · subst hc; simpa using ha
        · exact hpre c hc

/-- The test of `find_first_not_of(" \t")` and `find_last_not_of(" \t")`. -/
theorem notBlank_false_iff (c : Char) :
    (!" \t".data.contains c) = false ↔ c = ' ' ∨ c = '\t' := by
  have hd : " \t".data = [' ', '\t'] := rfl
  rw [hd]
  simp only [List.contains_cons, List.contains_nil, Bool.or_false]
  by_cases h1 : c = ' '
  · simp [h1]
  · by_cases h2 : c = '\t'
    · simp [h2]
    · simp [h1, h2]

/-- What `trim` returns: nothing for a line of spaces and tabs, and else the line without
the spaces and tabs before its first and after its last other character. -/
theorem trim_decomp (str : String) :
    (BlankRun str ∧ trim str = "") ∨
      ∃ lead core trail : List Char,
        str.data = lead ++ core ++ trail ∧ (trim str).data = core ∧
          (∀ c ∈ lead, c = ' ' ∨ c = '\t') ∧ (∀ c ∈ trail, c = ' ' ∨ c = '\t') := by
  cases hf : find_first_not_of str " \t" with
  | none =>
    left
    exact ⟨blank_of_find_none str hf, by simp [trim, hf]⟩
  | some start =>
    right
    obtain ⟨pre, x, post, hl, hlen, hpre, hx⟩ := findIdx?_split _ _ start hf
    have hxm : x ∈ str.data.reverse := by rw [hl]; simp
    cases hr : str.data.reverse.findIdx? (fun c => !" \t".data.contains c) with
    | none =>
      rw [List.findIdx?_eq_none_iff] at hr
      have := hr x hxm
      rw [hx] at this
      exact absurd this (by simp)
    | some j =>
      obtain ⟨pre', x', post', hl', hlen', hpre', hx'⟩ := findIdx?_split _ _ j hr
      have hl2 : str.data = post'.reverse ++ x' :: pre'.reverse := by
        have := congrArg List.reverse hl'
        simpa using this
      have hx'nb : ¬ (x' = ' ' ∨ x' = '\t') := by
        intro hb
        rw [← notBlank_false_iff, hx'] at hb
        exact absurd hb (by simp)
      have heq : pre ++ x :: post = post'.reverse ++ x' :: pre'.reverse := by
        rw [← hl, hl2]
      have hcase : ∃ a' : List Char, post'.reverse = pre ++ a' ∧
          x :: post = a' ++ x' :: pre'.reverse := by
        rcases List.append_eq_append_iff.1 heq with ⟨a', h1, h2⟩ | ⟨c', h1, h2⟩
        · exact ⟨a', h1, h2⟩
        · cases c' with
          | nil => exact ⟨[], by simpa using h1.symm, by simpa using h2.symm⟩
          | cons y c'' =>
            simp only [List.cons_append, List.cons.injEq] at h2
            have hy : x' ∈ pre := by rw [h1, h2.1]; simp
            have := (notBlank_false_iff x').1 (hpre x' hy)
            exact absurd this hx'nb
      obtain ⟨a', hA, hrest⟩ := hcase
      have hlast : find_last_not_of str " \t" = some (str.data.length - 1 - j) := by
        unfold find_last_not_of
        rw [hr]
        rfl
      have hend : str.data.length - 1 - j = pre.length + a'.length := by
        have h1 : str.data.length = post'.length + 1 + pre'.length := by
          rw [hl2]; simp; omega
        have h2 : post'.length = pre.length + a'.length := by
          have := congrArg List.length hA
          simpa using this
        omega
      refine ⟨pre, a' ++ [x'], pre'.reverse, ?_, ?_, ?_, ?_⟩
      · rw [hl, hrest]; simp
      · have hdrop : str.data.drop start = (a' ++ [x']) ++ pre'.reverse := by
          rw [hl, ← hlen, List.drop_left, hrest]; simp
        have hn : pre.length + a'.length - start + 1 = (a' ++ [x']).length := by
          simp [← hlen]
        simp only [trim, hf, hlast, Option.getD_some, substr, hdrop, hend, hn]
        rw [List.take_left]
      · intro c hc
        exact (notBlank_false_iff c).1 (hpre c hc)
      · intro c hc
        exact (notBlank_false_iff c).1 (hpre' c (by simpa using hc))

/-- Spaces and tabs read outside quotes at the end of a line do not change the tokens. -/
theorem finish_blank (cs : List Char) (hb : ∀ c ∈ cs, c = ' ' ∨ c = '\t')
    (toks : List String) (cur : String) :
    tokenizeFinish (cs.foldl tokenizeStep ⟨toks, cur, false⟩) =
      tokenizeFinish ⟨toks, cur, false⟩ := by
  by_cases hcur : cur = ""
  · subst hcur
    rw [run_blank_idle cs hb]
  · by_cases hcs : cs = []
    · subst hcs; rfl
    · rw [run_blank_flush cs hb hcs toks cur hcur]
      simp [tokenizeFinish, hcur]

theorem count_quote_blank (cs : List Char) (hb : ∀ c ∈ cs, c = ' ' ∨ c = '\t') :
    cs.count '\'' = 0 := by
  rw [List.count_eq_zero]
  intro h
  rcases hb _ h with h1 | h1 <;> exact absurd h1 (by decide)


/-! ## The builtin set and the branches of `main` -/

/-- A path that `getExecutablePath` returns is never the text `a shell builtin`. -/
theorem getExecutablePath_ne_builtin_text (s : ShellState) (command : String) :
    getExecutablePath s command ≠ .ok "a shell builtin" := by
  cases hp : s.env "PATH" with
  | none =>
    have h0 : getExecutablePath s command = .ok "" := by simp [getExecutablePath, hp]
    rw [h0]
    intro h
    exact absurd (Except.ok.inj h) (by decide)
  | some path_env =>
    rcases getExecutablePath_cases s command path_env hp with
      ⟨h0, _⟩ | ⟨d, hd, hres, _⟩ | ⟨what, hw⟩
    · rw [h0]
      intro h
      exact absurd (Except.ok.inj h) (by decide)
    · intro h
      have hs := slash_mem_pathAppend d command (tokenizePath_ne_empty _ _ d hd)
      rw [hres] at h
      rw [Except.ok.inj h] at hs
      exact absurd hs (by decide)
    · rw [hw]
      intro h
      cases h

/-- For a name outside the builtin set, `type` does not write the report of a builtin. -/
theorem typeReport_not_builtin (s : ShellState) (n : String) (h : n ∉ builtins) :
    typeReport s n ≠ .ok (n ++ " is a shell builtin" ++ "\n") := by
  have hc : ¬ (builtins.contains n = true) := by simpa using h
  unfold typeReport
  rw [if_neg hc]
  cases hg : getExecutablePath s n with
  | error what =>
    intro heq
    cases heq
  | ok path =>
    simp only
    by_cases hp : path ≠ ""
    · rw [if_pos hp]
      intro heq
      have hd := congrArg String.data (Except.ok.inj heq)
      simp only [String.data_append, List.append_assoc, List.append_cancel_left_eq,
        List.cons_append, List.nil_append, List.cons.injEq, true_and] at hd
      have h1 : path.data ++ ['\n'] = "a shell builtin".data ++ ['\n'] := hd
      have h2 : path = "a shell builtin" := String.ext (List.append_cancel_right h1)
      rw [h2] at hg
      exact getExecutablePath_ne_builtin_text s n hg
    · rw [if_neg hp]
      intro heq
      have hd := congrArg String.data (Except.ok.inj heq)
      simp only [String.data_append, List.append_assoc, List.append_cancel_left_eq] at hd
      exact absurd hd (by decide)

/-- The `cd` branch launches nothing. -/
theorem cdBranch_launched (s : ShellState) (parts : List String) :
    (cdBranch s parts).state.launched = s.launched := by
  unfold cdBranch changeDir
  split
  · split <;> rfl
  · split
    · split
      · rfl
      · split <;> rfl
    · simp only
      split
      · rfl
      · split <;> rfl
      · rfl

/-- The `pwd` branch launches nothing. -/
theorem pwdBranch_launched (s : ShellState) : (pwdBranch s).state.launched = s.launched := by
  unfold pwdBranch
  split <;> rfl

/-! ## The claims -/

/-- C1: the line `''` is not blank and has no tokens; the iteration then reads `tokens[0]`
of an empty vector instead of prompting again. -/
theorem processLine_two_quotes (s : ShellState) :
    trim "''" = "''" ∧ find_first_not_of (trim "''") " \t" = some 0 ∧
      tokenize (trim "''") = [] ∧ processLine s "''" = .fault .emptyTokens s := by
  refine ⟨by decide, by decide, by decide, ?_⟩
  have h1 : find_first_not_of (trim "''") " \t" ≠ none := by decide
  have h2 : tokenize (trim "''") = [] := by decide
  simp only [processLine, h1, h2, if_false, dispatch]

/-- C2: a trailing separator adds no `.` entry and the empty string has no entry at all,
while a leading or doubled separator does give `.`. -/
theorem tokenizePath_trailing_separator :
    tokenizePath "/usr/bin:" ':' = ["/usr/bin"] ∧ tokenizePath "" ':' = [] ∧
      tokenizePath ":/bin" ':' = [".", "/bin"] ∧
      tokenizePath "/a::/b" ':' = ["/a", ".", "/b"] := by
  decide

/-- C3: with `HOME` unset, `cd ~` writes its message and then builds a `std::string` from
the null pointer: the iteration faults instead of prompting again. -/
theorem cd_tilde_home_unset (s : ShellState) (h : s.env "HOME" = none) :
    processLine s "cd ~" =
      .fault .nullString { s with out := s.out ++ "cd: HOME env not found" } := by
  have h1 : find_first_not_of (trim "cd ~") " \t" ≠ none := by decide
  have h2 : tokenize (trim "cd ~") = ["cd", "~"] := by decide
  simp only [processLine, h1, h2, if_false, dispatch]
  simp [cdBranch, h, ShellState.print]

theorem cd_tilde_home_unset_witness :
    sampleState.env "HOME" = none ∧
      processLine sampleState "cd ~" =
        .fault .nullString { sampleState with out := "cd: HOME env not found" } :=
  ⟨by decide, cd_tilde_home_unset sampleState (by decide)⟩

/-- C4: a non-empty result of `getExecutablePath` is the candidate `dir / command` of the
first directory of the split `PATH` whose candidate passes the executability test; the
candidates of all earlier directories fail it. -/
theorem getExecutablePath_first_match (s : ShellState) (command path : String)
    (hres : getExecutablePath s command = .ok path) (h : path ≠ "") :
    ∃ path_env, s.env "PATH" = some path_env ∧
      ∃ (i : Nat) (d : String),
        (tokenizePath path_env PATH_LIST_SEPARATOR)[i]? = some d ∧
        path = pathAppend d command ∧
        isExecutableFile s (pathAppend d command) = .ok true ∧
        ∀ (j : Nat) (e : String), j < i →
          (tokenizePath path_env PATH_LIST_SEPARATOR)[j]? = some e →
          isExecutableFile s (pathAppend e command) = .ok false := by
  unfold getExecutablePath at hres
  cases hp : s.env "PATH" with
  | none =>
    simp only [hp, Except.ok.injEq] at hres
    exact absurd hres.symm h
  | some path_env =>
    simp only [hp] at hres
    refine ⟨path_env, rfl, ?_⟩
    cases hs : searchDirs s command exts (tokenizePath path_env PATH_LIST_SEPARATOR) with
    | error what => simp [hs] at hres
    | ok found =>
      cases found with
      | none =>
        simp only [hs, Option.getD_none, Except.ok.injEq] at hres
        exact absurd hres.symm h
      | some full =>
        simp only [hs, Option.getD_some, Except.ok.injEq] at hres
        obtain ⟨i, d, hd, hfull, hexec, hmin⟩ := searchDirs_some s command _ full hs
        exact ⟨i, d, hd, by rw [← hres, hfull], hexec, hmin⟩

theorem getExecutablePath_first_match_witness :
    getExecutablePath sampleState "foo" = .ok "/usr/bin/foo" ∧
      isExecutableFile sampleState "/bin/foo" = .ok true ∧
      ∃ path_env, sampleState.env "PATH" = some path_env ∧
        ∃ (i : Nat) (d : String),
          (tokenizePath path_env PATH_LIST_SEPARATOR)[i]? = some d ∧
          "/usr/bin/foo" = pathAppend d "foo" ∧
          isExecutableFile sampleState (pathAppend d "foo") = .ok true ∧
          ∀ (j : Nat) (e : String), j < i →
            (tokenizePath path_env PATH_LIST_SEPARATOR)[j]? = some e →
            isExecutableFile sampleState (pathAppend e "foo") = .ok false :=
  ⟨by rfl, by rfl,
    getExecutablePath_first_match sampleState "foo" "/usr/bin/foo" (by rfl) (by decide)⟩

/-- C5: a line of plain words, with non-empty runs of spaces and tabs between them and
any runs of spaces and tabs before the first and after the last, tokenizes to exactly
these words in order; a line of spaces and tabs only has no token. -/
theorem tokenize_plain_words :
    (∀ (lead : String) (words gaps : List String) (trail : String),
      BlankRun lead → (∀ w ∈ words, PlainWord w) → (∀ g ∈ gaps, g ≠ "" ∧ BlankRun g) →
      gaps.length = words.length - 1 → BlankRun trail →
      tokenize (lead ++ spaced words gaps trail) = words) ∧
    (∀ line : String, BlankRun line → tokenize line = []) := by
  refine ⟨tokenize_spaced, ?_⟩
  intro line hb
  have h := tokenize_spaced line [] [] "" hb (by simp) (by simp) rfl (by simp [BlankRun])
  rw [spaced_nil, String.append_empty] at h
  exact h

theorem tokenize_plain_words_witness :
    "" ++ spaced ["echo", "hello", "world"] ["  ", "   "] "" = "echo  hello   world" ∧
      tokenize "echo  hello   world" = ["echo", "hello", "world"] ∧
      tokenize " \t " = [] := by
  have e : "" ++ spaced ["echo", "hello", "world"] ["  ", "   "] "" = "echo  hello   world" := by
    decide
  have h := tokenize_plain_words.1 "" ["echo", "hello", "world"] ["  ", "   "] ""
    (by simp [BlankRun]) (by simp [PlainWord]) (by simp [BlankRun]) rfl (by simp [BlankRun])
  rw [e] at h
  exact ⟨e, h, tokenize_plain_words.2 " \t " (by simp [BlankRun])⟩

/-- C6: a non-empty text without quote characters, put between two single quotes,
tokenizes to that text as one token, its spaces and tabs kept; and `echo 'a b' c`
tokenizes to `echo`, `a b`, `c`. -/
theorem tokenize_quoted :
    (∀ q : String, q ≠ "" → QuoteFree q → tokenize ("'" ++ q ++ "'") = [q]) ∧
      tokenize "echo 'a b' c" = ["echo", "a b", "c"] := by
  refine ⟨?_, by decide⟩
  intro q hne hq
  have hd : ("'" ++ q ++ "'").data = ('\'' :: q.data) ++ ['\''] := by simp
  unfold tokenize
  rw [hd, run_quoted q.data hq, empty_append_mk_data]
  simp [tokenizeFinish, hne]

theorem tokenize_quoted_witness :
    "a \t b" ≠ "" ∧ QuoteFree "a \t b" ∧ tokenize "'a \t b'" = ["a \t b"] :=
  ⟨by decide, by simp [QuoteFree], tokenize_quoted.1 "a \t b" (by decide) (by simp [QuoteFree])⟩

/-- C7: no token of `tokenize` is empty or holds a single quote; and when the line has
no single quote, no token holds a space or a tab. -/
theorem tokenize_tokens_clean (input : String) :
    (∀ t ∈ tokenize input, t ≠ "" ∧ '\'' ∉ t.data) ∧
      (QuoteFree input → ∀ t ∈ tokenize input, ' ' ∉ t.data ∧ '\t' ∉ t.data) := by
  constructor
  · intro t ht
    have hc : (input.data.foldl tokenizeStep ⟨[], "", false⟩).Clean :=
      run_clean _ _ ⟨by simp, by simp⟩
    rcases mem_finish _ t ht with h | ⟨h, hne⟩
    · exact hc.1 t h
    · rw [h]; exact ⟨hne, hc.2⟩
  · intro hq t ht
    have hu : (input.data.foldl tokenizeStep ⟨[], "", false⟩).Unquoted :=
      run_unquoted _ hq _ ⟨rfl, by simp, by simp, by simp⟩
    rcases mem_finish _ t ht with h | ⟨h, _⟩
    · exact hu.2.1 t h
    · rw [h]; exact hu.2.2

theorem tokenize_tokens_clean_witness :
    QuoteFree "ls  -l\t/tmp" ∧ tokenize "ls  -l\t/tmp" = ["ls", "-l", "/tmp"] ∧
      ∀ t ∈ tokenize "ls  -l\t/tmp", ' ' ∉ t.data ∧ '\t' ∉ t.data :=
  ⟨by simp [QuoteFree], by decide,
    (tokenize_tokens_clean "ls  -l\t/tmp").2 (by simp [QuoteFree])⟩

/-- C8: when an even number of quotes is followed by one more quote and a non-empty rest
`r` without quotes, `tokenize` returns a non-empty sequence whose last token ends with
`r` in full, the same sequence as for the line with a closing quote appended. -/
theorem tokenize_unterminated (p r : String) (hp : p.data.count '\'' % 2 = 0)
    (hr : r ≠ "") (hq : QuoteFree r) :
    tokenize (p ++ "'" ++ r) ≠ [] ∧
      (∃ t pre, (tokenize (p ++ "'" ++ r)).getLast? = some t ∧ t = pre ++ r) ∧
      tokenize (p ++ "'" ++ r) = tokenize (p ++ "'" ++ r ++ "'") := by
  have hflag := run_flag p.data ⟨[], "", false⟩
  rw [hp] at hflag
  simp only [Bool.false_xor] at hflag
  have hflag' : (p.data.foldl tokenizeStep ⟨[], "", false⟩).inside_quotes = false := by
    simpa using hflag
  generalize hst : p.data.foldl tokenizeStep ⟨[], "", false⟩ = st at hflag'
  obtain ⟨toks, cur, b⟩ := st
  simp only at hflag'
  subst hflag'
  have hd1 : (p ++ "'" ++ r).data = p.data ++ ('\'' :: r.data) := by simp
  have hd2 : (p ++ "'" ++ r ++ "'").data = p.data ++ (('\'' :: r.data) ++ ['\'']) := by simp
  have hopen : tokenizeStep ⟨toks, cur, false⟩ '\'' = ⟨toks, cur, true⟩ := by
    simp [tokenizeStep]
  have hcur : cur ++ String.mk r.data = cur ++ r := rfl
  have hne : cur ++ r ≠ "" := by
    rw [ne_empty_iff, String.data_append]
    have := (ne_empty_iff r).1 hr
    simp [this]
  have h1 : tokenize (p ++ "'" ++ r) = toks ++ [cur ++ r] := by
    unfold tokenize
    rw [hd1, List.foldl_append, hst, List.foldl_cons, hopen, run_inside r.data hq, hcur]
    simp [tokenizeFinish, hne]
  have h2 : tokenize (p ++ "'" ++ r ++ "'") = toks ++ [cur ++ r] := by
    unfold tokenize
    rw [hd2, List.foldl_append, hst, run_quoted r.data hq, hcur]
    simp [tokenizeFinish, hne]
  rw [h1, h2]
  exact ⟨by simp, ⟨cur ++ r, cur, by simp, rfl⟩, rfl⟩

theorem tokenize_unterminated_witness :
    "echo x".data.count '\'' % 2 = 0 ∧ "a b" ≠ "" ∧ QuoteFree "a b" ∧
      tokenize ("echo x" ++ "'" ++ "a b") ≠ [] ∧
      (∃ t pre, (tokenize ("echo x" ++ "'" ++ "a b")).getLast? = some t ∧ t = pre ++ "a b") ∧
      tokenize ("echo x" ++ "'" ++ "a b") = tokenize ("echo x" ++ "'" ++ "a b" ++ "'") :=
  ⟨by decide, by decide, by simp [QuoteFree],
    tokenize_unterminated "echo x" "a b" (by decide) (by decide) (by simp [QuoteFree])⟩

/-- C9: for a name of the builtin set, `type` writes `<name> is a shell builtin` and a
line terminator, whatever `PATH` and the filesystem hold, and changes nothing else. -/
theorem type_reports_builtin (s : ShellState) (name : String) (h : name ∈ builtins) :
    typeReport s name = .ok (name ++ " is a shell builtin" ++ "\n") ∧
      dispatch s ["type", name] =
        .next { s with out := s.out ++ (name ++ " is a shell builtin" ++ "\n") } := by
  have hc : builtins.contains name = true := by
    simpa using h
  have hr : typeReport s name = .ok (name ++ " is a shell builtin" ++ "\n") := by
    unfold typeReport
    rw [if_pos hc]
  refine ⟨hr, ?_⟩
  rw [dispatch_type]
  simp only [typeLoop, hr]
  rfl

theorem type_reports_builtin_witness :
    "echo" ∈ builtins ∧ getExecutablePath sampleState "echo" = .ok "/bin/echo" ∧
      typeReport sampleState "echo" = .ok "echo is a shell builtin\n" ∧
      dispatch sampleState ["type", "echo"] =
        .next { sampleState with
          out := sampleState.out ++ ("echo" ++ " is a shell builtin" ++ "\n") } :=
  ⟨by decide, by rfl, by rfl, (type_reports_builtin sampleState "echo" (by decide)).2⟩

/-- C10: for tokens that start with `echo`, the dispatcher writes the other tokens
joined by single spaces and one line terminator, and changes nothing else; so a line
`echo w₁ … wₙ` of plain words, however long its runs of spaces and tabs, prints the words
joined by single spaces. -/
theorem echo_prints_joined :
    (∀ (s : ShellState) (args : List String),
      dispatch s ("echo" :: args) =
        .next { s with out := s.out ++ (" ".intercalate args ++ "\n") }) ∧
    (∀ (s : ShellState) (lead : String) (words gaps : List String) (trail : String),
      BlankRun lead → (∀ w ∈ words, PlainWord w) → (∀ g ∈ gaps, g ≠ "" ∧ BlankRun g) →
      gaps.length = words.length → BlankRun trail →
      dispatch s (tokenize (lead ++ spaced ("echo" :: words) gaps trail)) =
        .next { s with out := s.out ++ (" ".intercalate words ++ "\n") }) := by
  have hecho : ∀ (s : ShellState) (args : List String),
      dispatch s ("echo" :: args) =
        .next { s with out := s.out ++ (" ".intercalate args ++ "\n") } := by
    intro s args
    have hx : ("echo" : String) ≠ "exit" := by decide
    simp only [dispatch, hx, if_false, if_true, ShellState.print, echoText_eq_intercalate]
  refine ⟨hecho, ?_⟩
  intro s lead words gaps trail hlead hw hg hlen ht
  have hwords : ∀ w ∈ "echo" :: words, PlainWord w := by
    intro w hm
    rcases List.mem_cons.1 hm with h | h
    · subst h; simp [PlainWord]
    · exact hw w h
  rw [tokenize_spaced lead ("echo" :: words) gaps trail hlead hwords hg (by simpa using hlen) ht]
  exact hecho s words

theorem echo_prints_joined_witness :
    "" ++ spaced ["echo", "a", "b", "c"] [" ", "   ", "  "] "" = "echo a   b  c" ∧
      " ".intercalate ["a", "b", "c"] ++ "\n" = "a b c\n" ∧
      dispatch sampleState (tokenize "echo a   b  c") =
        .next { sampleState with
          out := sampleState.out ++ (" ".intercalate ["a", "b", "c"] ++ "\n") } := by
  have e : "" ++ spaced ["echo", "a", "b", "c"] [" ", "   ", "  "] "" = "echo a   b  c" := by
    decide
  have h := echo_prints_joined.2 sampleState "" ["a", "b", "c"] [" ", "   ", "  "] ""
    (by simp [BlankRun]) (by simp [PlainWord]) (by simp [BlankRun]) rfl (by simp [BlankRun])
  rw [e] at h
  exact ⟨e, by decide, h⟩

/-- C12: when the first token is no builtin and `getExecutablePath` finds a path for it,
the dispatcher launches one process, with that path as executable and the whole token
sequence as argument vector, and does nothing else. -/
theorem external_launch (s : ShellState) (t0 : String) (args : List String)
    (path : String) (hb : t0 ∉ builtins) (hres : getExecutablePath s t0 = .ok path)
    (hp : path ≠ "") :
    dispatch s (t0 :: args) =
      .next { s with launched := s.launched ++ [(path, t0 :: args)] } := by
  rw [dispatch_external s t0 args ((branchOf_external_iff t0).2 hb)]
  simp only [hres, if_neg hp]
  rfl

theorem external_launch_witness :
    "foo" ∉ builtins ∧ getExecutablePath sampleState "foo" = .ok "/usr/bin/foo" ∧
      dispatch sampleState ["foo", "-v", "x y"] =
        .next { sampleState with launched := [("/usr/bin/foo", ["foo", "-v", "x y"])] } :=
  ⟨by decide, by rfl,
    external_launch sampleState "foo" ["-v", "x y"] "/usr/bin/foo" (by decide) (by rfl)
      (by decide)⟩

/-- C13: a `cd` to a path that exists and is no directory makes `fs::current_path` throw
outside any `try`, and the iteration faults; so do `cd ~` without `HOME` and the line
`''`. -/
theorem processLine_faults :
    processLine sampleState "cd /usr/bin/foo" =
        .fault (.uncaught "filesystem error: cannot set current path: Not a directory")
          sampleState ∧
      processLine sampleState "cd ~" =
        .fault .nullString (sampleState.print "cd: HOME env not found") ∧
      processLine sampleState "''" = .fault .emptyTokens sampleState := by
  have a1 : find_first_not_of (trim "cd /usr/bin/foo") " \t" ≠ none := by decide
  have a2 : tokenize (trim "cd /usr/bin/foo") = ["cd", "/usr/bin/foo"] := by decide
  have b1 : find_first_not_of (trim "cd ~") " \t" ≠ none := by decide
  have b2 : tokenize (trim "cd ~") = ["cd", "~"] := by decide
  have c1 : find_first_not_of (trim "''") " \t" ≠ none := by decide
  have c2 : tokenize (trim "''") = [] := by decide
  refine ⟨?_, ?_, ?_⟩
  · simp only [processLine, a1, a2, if_false, dispatch_cd]
    rfl
  · simp only [processLine, b1, b2, if_false, dispatch_cd]
    rfl
  · simp only [processLine, c1, c2, if_false, dispatch]

/-- C16: a run over lines of which one has `exit` as first token is the run over the
lines up to that one: what follows is not read; and a run with no line left ends after
the prompt. -/
theorem run_stops_at_exit (s : ShellState) (pre : List String) (line : String)
    (post : List String) (h : IsExitLine line) :
    run s (pre ++ line :: post) = run s (pre ++ [line]) ∧
      run s (line :: post) = .stop (s.print "$ ") ∧
      run s [] = .stop (s.print "$ ") := by
  have hline : ∀ (s : ShellState) (rest : List String),
      run s (line :: rest) = .stop (s.print "$ ") := by
    intro s rest
    simp only [run, processLine_exit _ line h]
  refine ⟨?_, hline s post, rfl⟩
  induction pre generalizing s with
  | nil => simp only [List.nil_append, hline]
  | cons p ps ih =>
    simp only [List.cons_append, run]
    cases processLine (s.print "$ ") p with
    | next s' => exact ih s'
    | stop s' => rfl
    | fault f s' => rfl

theorem run_stops_at_exit_witness :
    IsExitLine " exit  0" ∧
      run sampleState (["echo a", "pwd"] ++ " exit  0" :: ["echo b", "cd ~"]) =
        run sampleState (["echo a", "pwd"] ++ [" exit  0"]) :=
  ⟨by decide, (run_stops_at_exit sampleState ["echo a", "pwd"] " exit  0" ["echo b", "cd ~"]
    (by decide)).1⟩

/-- C17: where `fs::current_path("/")` succeeds with the working directory `/`, a lone
`cd` sets the working directory to `/`; and where `fs::current_path()` returns there, a
`pwd` right after it prints `/` and a line terminator. -/
theorem cd_alone_goes_to_root (s : ShellState) (hroot : s.fsys.chdir s.cwd "/" = .ok "/") :
    dispatch s ["cd"] = .next { s with cwd := "/" } ∧
      (s.fsys.cwdError "/" = none →
        dispatch (dispatch s ["cd"]).state ["pwd"] =
          .next { s with cwd := "/", out := s.out ++ ("/" ++ "\n") }) := by
  have hcd : dispatch s ["cd"] = .next { s with cwd := "/" } := by
    rw [dispatch_cd]
    simp [cdBranch, changeDir, hroot]
  refine ⟨hcd, ?_⟩
  intro hcwd
  rw [hcd, dispatch_pwd]
  simp only [pwdBranch, Outcome.state, hcwd]
  rfl

theorem cd_alone_goes_to_root_witness :
    sampleState.fsys.chdir sampleState.cwd "/" = .ok "/" ∧
      sampleState.fsys.cwdError "/" = none ∧
      sampleState.cwd = "/bin" ∧
      dispatch sampleState ["cd"] = .next { sampleState with cwd := "/" } ∧
      dispatch (dispatch sampleState ["cd"]).state ["pwd"] =
        .next { sampleState with cwd := "/", out := sampleState.out ++ ("/" ++ "\n") } :=
  ⟨by rfl, by rfl, by rfl, (cd_alone_goes_to_root sampleState (by rfl)).1,
    (cd_alone_goes_to_root sampleState (by rfl)).2 (by rfl)⟩

/-- C17, where the root directory cannot be entered: a lone `cd` faults and the working
directory is not `/` afterwards. -/
theorem cd_alone_counterexample :
    dispatch lockedState ["cd"] =
        .fault (.uncaught "filesystem error: cannot set current path: Permission denied")
          lockedState ∧
      (dispatch lockedState ["cd"]).state.cwd = "/tmp/gone" :=
  ⟨by rfl, by rfl⟩

/-- C18: the tokens of a line, concatenated in order, are the line with every single
quote deleted and every space or tab outside a quoted region deleted. -/
theorem tokens_concat_eq_unquoted (line : String) :
    String.join (tokenize line) = String.mk (unquotedText false line.data) := by
  apply String.ext
  unfold tokenize
  rw [join_finish_run]
  simp [String.join]

/-- C19: for a line with an even number of single quotes, the trimming that `main` does
before it tokenizes does not change the tokens. -/
theorem tokenize_trim (line : String) (heven : line.data.count '\'' % 2 = 0) :
    tokenize (trim line) = tokenize line := by
  rcases trim_decomp line with ⟨hb, ht⟩ | ⟨lead, core, trail, hl, hcore, hlead, htrail⟩
  · rw [ht, tokenize_blank line hb]
    rfl
  · have hcount : core.count '\'' % 2 = 0 := by
      rw [hl, List.count_append, List.count_append, count_quote_blank lead hlead,
        count_quote_blank trail htrail] at heven
      simpa using heven
    have hflag := run_flag core ⟨[], "", false⟩
    rw [hcount] at hflag
    have hflag' : (core.foldl tokenizeStep ⟨[], "", false⟩).inside_quotes = false := by
      simpa using hflag
    unfold tokenize
    rw [hcore, hl, List.foldl_append, List.foldl_append, run_blank_idle lead hlead]
    generalize core.foldl tokenizeStep ⟨[], "", false⟩ = st at hflag'
    obtain ⟨toks, cur, b⟩ := st
    simp only at hflag'
    subst hflag'
    rw [finish_blank trail htrail]

theorem tokenize_trim_witness :
    "  echo 'a  b' \t".data.count '\'' % 2 = 0 ∧ trim "  echo 'a  b' \t" = "echo 'a  b'" ∧
      tokenize (trim "  echo 'a  b' \t") = tokenize "  echo 'a  b' \t" :=
  ⟨by decide, by decide, tokenize_trim "  echo 'a  b' \t" (by decide)⟩

/-- C20: the names that `type` reports as shell builtins are the names for which `main`
takes one of its five builtin branches; such a first token launches no process, whatever
`PATH` holds, and any other goes to the external branch.  The comparison is exact:
`Echo` is no builtin on either side. -/
theorem builtins_agree (s : ShellState) (n : String) (args : List String) :
    (typeReport s n = .ok (n ++ " is a shell builtin" ++ "\n") ↔ branchOf n ≠ .external) ∧
      (builtins.contains n = true ↔ branchOf n ≠ .external) ∧
      dispatch s (n :: args) =
        (match branchOf n with
          | .exit => .stop s
          | .echo => .next (s.print (echoText args ++ "\n"))
          | .type => typeLoop s args
          | .pwd => pwdBranch s
          | .cd => cdBranch s args
          | .external =>
            match getExecutablePath s n with
            | .error what => .fault (.uncaught what) s
            | .ok path =>
              if path = "" then .next (s.print (n ++ ": command not found" ++ "\n"))
              else .next (executeProgram s path (n :: args))) ∧
      (branchOf n ≠ .external → (dispatch s (n :: args)).state.launched = s.launched) ∧
      branchOf "Echo" = .external ∧ builtins.contains "Echo" = false := by
  have hmem : branchOf n ≠ .external ↔ n ∈ builtins := by
    rw [ne_eq, branchOf_external_iff, not_not]
  have hdis : dispatch s (n :: args) =
      (match branchOf n with
        | .exit => .stop s
        | .echo => .next (s.print (echoText args ++ "\n"))
        | .type => typeLoop s args
        | .pwd => pwdBranch s
        | .cd => cdBranch s args
        | .external =>
          match getExecutablePath s n with
          | .error what => .fault (.uncaught what) s
          | .ok path =>
            if path = "" then .next (s.print (n ++ ": command not found" ++ "\n"))
            else .next (executeProgram s path (n :: args))) := by
    by_cases h1 : n = "exit"
    · subst h1; rfl
    by_cases h2 : n = "echo"
    · subst h2; rfl
    by_cases h3 : n = "type"
    · subst h3; rfl
    by_cases h4 : n = "pwd"
    · subst h4; rfl
    by_cases h5 : n = "cd"
    · subst h5; rfl
    unfold branchOf dispatch
    simp only [h1, h2, h3, h4, h5, if_false]
  refine ⟨?_, ?_, hdis, ?_, by decide, by decide⟩
  · rw [hmem]
    constructor
    · intro h
      by_contra hn
      exact typeReport_not_builtin s n hn h
    · intro h
      have hc : builtins.contains n = true := by simpa using h
      unfold typeReport
      rw [if_pos hc]
  · rw [hmem]
    simp
  · intro hb
    rw [hdis]
    cases hbr : branchOf n with
    | exit => rfl
    | echo => rfl
    | type => exact typeLoop_launched args s
    | pwd => exact pwdBranch_launched s
    | cd => exact cdBranch_launched s args
    | external => exact absurd hbr hb

theorem builtins_agree_witness :
    branchOf "pwd" ≠ .external ∧
      typeReport sampleState "pwd" = .ok "pwd is a shell builtin\n" ∧
      (dispatch sampleState ["pwd", "x"]).state.launched = sampleState.launched ∧
      typeReport sampleState "Echo" = .ok "Echo: not found\n" ∧
      dispatch sampleState ["Echo", "x"] =
        .next (sampleState.print ("Echo" ++ ": command not found" ++ "\n")) := by
  have h := builtins_agree sampleState "Echo" ["x"]
  have he : branchOf "Echo" = .external := by decide
  have hp : getExecutablePath sampleState "Echo" = .ok "" := by rfl
  have hd := h.2.2.1
  rw [he] at hd
  simp only [hp, if_true] at hd
  exact ⟨by decide, by rfl,
    (builtins_agree sampleState "pwd" ["x"]).2.2.2.1 (by decide), by rfl, hd⟩

end Shell
